import Mathlib

/-!
Verification development for the fruit-classifier pipeline.

The pipeline (directory sanitization, file collection, preprocessing,
dataset splitting and training orchestration) is embedded shallowly:

* images are functions `Fin H → Fin W → Fin 3 → ℕ` with 8-bit pixel values;
* the external resize routines (`skimage.transform.resize`, `cv2.resize`) are
  modelled as convex resamplings: each output pixel is a nonnegative weighted
  average (weights summing to 1) of input pixels, which is the contract shared
  by bilinear interpolation with or without a Gaussian anti-aliasing
  pre-filter.  `skimage.transform.resize` additionally converts 8-bit input to
  floats in `[0,1]` first (`img_as_float`), while `cv2.resize` stays on the
  `0..255` scale and returns 8-bit output;
* the filesystem is a record of a finite set of file paths, a finite set of
  directory paths, and a content assignment; image decodability of a content
  is an abstract boolean predicate standing for `cv2.imread` succeeding;
* the seeded pseudo-random shuffle of the `random` module (and the seeded
  permutation used by `train_test_split`) is modelled by a deterministic
  Fisher-Yates shuffle driven by a linear congruential generator;
* the keras fit loop is modelled as iterating an abstract parameter-update
  step, recording one metrics record per epoch.
-/

namespace FruitClassifier

/-! ### Preprocessor (src/fruit_classifier/preprocessing/preprocessing_utils.py) -/

/-- Resampling weights of a fixed-output-size (28×28) image resize: the weight
given to input pixel `(i, j)` in output pixel `(oi, oj)`. -/
abbrev Kern (H W : ℕ) := Fin 28 → Fin 28 → Fin H → Fin W → ℚ

/-- An 8-bit three-channel image of height `H` and width `W`, as produced by
`cv2.imread` / `open_image`. -/
abbrev Img (H W : ℕ) := Fin H → Fin W → Fin 3 → ℕ

/-- A resampling kernel is convex when all weights are nonnegative and the
weights of every output pixel sum to 1.  Bilinear interpolation, with or
without a Gaussian anti-aliasing pre-filter, has this property. -/
def ConvexKern (H W : ℕ) (k : Kern H W) : Prop :=
  (∀ oi oj i j, 0 ≤ k oi oj i j) ∧
    ∀ oi oj, (∑ i : Fin H, ∑ j : Fin W, k oi oj i j) = 1

/-- Channel-wise resampling of a rational-valued image with kernel `k`. -/
def resample (H W : ℕ) (k : Kern H W) (img : Fin H → Fin W → Fin 3 → ℚ) :
    Fin 28 → Fin 28 → Fin 3 → ℚ :=
  fun oi oj c => ∑ i : Fin H, ∑ j : Fin W, k oi oj i j * img i j c

/-- Conversion of an 8-bit image to floats in `[0,1]`, as `img_as_float`
does inside `skimage.transform.resize`. -/
def imgAsFloat (H W : ℕ) (img : Img H W) : Fin H → Fin W → Fin 3 → ℚ :=
  fun i j c => (img i j c : ℚ) / 255

/-- Model of `skimage.transform.resize(image, output_shape=(28, 28),
mode='reflect', anti_aliasing=True)`: the 8-bit input is first rescaled to
`[0,1]` floats, then resampled with an (anti-aliased, convex) kernel. -/
def skimage_resize (H W : ℕ) (k : Kern H W) (img : Img H W) :
    Fin 28 → Fin 28 → Fin 3 → ℚ :=
  resample H W k (imgAsFloat H W img)

/-- Model of `preprocess_image` (preprocessing_utils.py, lines 67-88): the
anti-aliased `skimage` resize to 28×28 followed by division by 255. -/
def preprocess_image (H W : ℕ) (k : Kern H W) (img : Img H W) :
    Fin 28 → Fin 28 → Fin 3 → ℚ :=
  fun oi oj c => skimage_resize H W k img oi oj c / 255

/-- Model of `cv2.resize(image, (28, 28))`: a plain convex resampling on the
`0..255` scale, rounded back to 8-bit integers. -/
def cv2_resize (H W : ℕ) (k : Kern H W) (img : Img H W) :
    Fin 28 → Fin 28 → Fin 3 → ℕ :=
  fun oi oj c =>
    (⌊resample H W k (fun i j ch => (img i j ch : ℚ)) oi oj c + 1 / 2⌋).toNat

/-- The per-image transform applied while building the training dataset in
`get_data_and_labels` (train_utils.py, lines 60-72): `cv2.resize` to 28×28
(`img_to_array` changes no value) followed by division by 255. -/
def train_image_transform (H W : ℕ) (k : Kern H W) (img : Img H W) :
    Fin 28 → Fin 28 → Fin 3 → ℚ :=
  fun oi oj c => (cv2_resize H W k img oi oj c : ℚ) / 255

/-! ### Seeded pseudo-random shuffle (model of the python random module) -/

/-- Linear congruential state update standing in for the internal state
update of the seeded pseudo-random generator of the `random` module. -/
def lcgNext (s : ℕ) : ℕ := (1103515245 * s + 12345) % 2147483648

/-- Fuelled deterministic Fisher-Yates-style shuffle: at each step draw the
index `lcgNext s % length`, move that element to the front and continue on
the remainder with the updated generator state. -/
def shuffleAux {α : Type*} : ℕ → ℕ → List α → List α
  | 0, _, _ => []
  | _ + 1, _, [] => []
  | n + 1, s, a :: as =>
    have hi : lcgNext s % (a :: as).length < (a :: as).length :=
      Nat.mod_lt _ (Nat.succ_pos as.length)
    (a :: as)[lcgNext s % (a :: as).length] ::
      shuffleAux n (lcgNext s) ((a :: as).eraseIdx (lcgNext s % (a :: as).length))

/-- Deterministic pseudo-random shuffle from a seed, the model of
`random.seed(seed)` followed by `random.shuffle(l)`: the result depends only
on the seed and the list. -/
def pyShuffle {α : Type*} (seed : ℕ) (l : List α) : List α :=
  shuffleAux l.length seed l

/-! ### Filesystem model (for the Image Sanitizer and the File Collector) -/

/-- A path is the list of its components below the filesystem root. -/
abbrev FsPath := List String

/-- A filesystem snapshot: the finite set of regular files, the finite set of
directories, and the content stored at each path (contents are abstract
codes; only the content of file paths is meaningful). -/
@[ext]
structure FS where
  files : Finset FsPath
  dirs : Finset FsPath
  content : FsPath → ℕ

/-- The path `p` lies strictly inside the directory `d`; these are the
entries `d.glob('**/*')` can enumerate. -/
def strictUnder (d p : FsPath) : Prop := d <+: p ∧ p ≠ d

instance instDecStrictUnder (d p : FsPath) : Decidable (strictUnder d p) :=
  inferInstanceAs (Decidable (d <+: p ∧ p ≠ d))

/-- Rebasing a path below `src` to the corresponding path below `dst`. -/
def rebase (src dst p : FsPath) : FsPath := dst ++ p.drop src.length

/-- Modelled from the spec: `copytree` lives in
fruit_classifier/utils/file_utils.py, which is not under src/.  The spec
describes it as "recursively mirror the raw tree into the clean directory
(directories and files), preserving relative structure", and
test/utils/test_file_utils.py runs `copytree` twice in a row onto the same
destination, so the model merges into an existing destination.  A file copied
from `src` overwrites the content at the mirrored path; all other paths are
untouched. -/
def copytree (src dst : FsPath) (fs : FS) : FS where
  files := fs.files ∪ (fs.files.filter fun p => src <+: p).image (rebase src dst)
  dirs := insert dst
    (fs.dirs ∪ (fs.dirs.filter fun p => src <+: p).image (rebase src dst))
  content := fun p =>
    if dst <+: p ∧ (src ++ p.drop dst.length) ∈ fs.files then
      fs.content (src ++ p.drop dst.length)
    else fs.content p

/-- Model of `remove_non_images` (preprocessing_utils.py, lines 28-64):
mirror `raw_dir` into `clean_dir` with `copytree`, then walk every file
strictly below `clean_dir` and unlink those whose content `cv2.imread` cannot
decode; `decode` abstracts decodability of a content.  The final per-class
count report only prints and changes no state. -/
def remove_non_images (decode : ℕ → Bool) (raw_dir clean_dir : FsPath) (fs : FS) : FS :=
  let fs1 := copytree raw_dir clean_dir fs
  { fs1 with
    files := fs1.files.filter fun p =>
      ¬(strictUnder clean_dir p ∧ decode (fs1.content p) = false) }

/-- Two directories neither of which lies (weakly) below the other.  The
pipeline always passes the sibling directories `raw_data` and
`cleaned_data`. -/
def Unrelated (a b : FsPath) : Prop := ¬ a <+: b ∧ ¬ b <+: a

instance instDecUnrelated (a b : FsPath) : Decidable (Unrelated a b) :=
  inferInstanceAs (Decidable (¬ a <+: b ∧ ¬ b <+: a))

/-! ### File Collector (src/fruit_classifier/train/train_utils.py) -/

/-- The entries of `root.glob('**/*')` in sorted order: every file or
directory strictly below `root`, lexicographically ordered — provided `root`
is an existing directory; `pathlib` glob silently yields nothing
otherwise. -/
def globStar (fs : FS) (root : FsPath) : List FsPath :=
  if root ∈ fs.dirs then
    ((fs.files ∪ fs.dirs).filter fun p => strictUnder root p).sort (· ≤ ·)
  else []

/-- The sorted glob entries that are regular files: the list the File
Collector builds before shuffling. -/
def sortedImagePaths (fs : FS) (root : FsPath) : List FsPath :=
  (globStar fs root).filter fun p => decide (p ∈ fs.files)

/-- Model of `get_image_paths` (train_utils.py, lines 15-37): sort the glob
entries, keep only files, then `random.seed(42)` and `random.shuffle`.  The
`s` argument is the pseudo-random state the process had on entry; reseeding
with the constant 42 makes it irrelevant. -/
def get_image_paths (fs : FS) (path : FsPath) (s : ℕ) : List FsPath :=
  pyShuffle 42 (sortedImagePaths fs path)

/-! ### Dataset Builder (src/fruit_classifier/train/train_utils.py) -/

/-- One-hot encoding of class index `cls` among `n` classes, the model of
`keras.utils.to_categorical`. -/
def oneHot (n cls : ℕ) : List ℕ :=
  (List.range n).map fun j => if j = cls then 1 else 0

/-- The augmentation policy built by `ImageDataGenerator(...)` in
`get_model_input` and `get_image_generator`. -/
structure AugmentPolicy where
  rotation_range : ℕ
  width_shift_range : ℚ
  height_shift_range : ℚ
  shear_range : ℚ
  zoom_range : ℚ
  horizontal_flip : Bool
  fill_mode : String

/-- Model of `get_image_generator` (preprocessing_utils.py, lines 91-109) and
of the generator constructed in `get_model_input`. -/
def get_image_generator : AugmentPolicy :=
  { rotation_range := 30
    width_shift_range := 1 / 10
    height_shift_range := 1 / 10
    shear_range := 1 / 5
    zoom_range := 1 / 5
    horizontal_flip := true
    fill_mode := "nearest" }

/-- Model of `get_model_input` (train_utils.py, lines 78-125).
`LabelEncoder().fit_transform` maps every label to its index in the sorted
set of observed labels; `train_test_split(..., test_size=0.25,
random_state=42)` draws a pseudo-random permutation of the sample indices
from the fixed seed, takes `ceil(n/4)` of them as the validation set and the
remaining `floor(3n/4)` as the training set (the sklearn contract); labels
are then one-hot encoded with the observed class count. -/
def get_model_input {α : Type*} (dflt : α) (data : List α) (labels : List String) :
    List α × List α × List (List ℕ) × List (List ℕ) × AugmentPolicy :=
  let classes := labels.toFinset.sort (· ≤ ·)
  let encoded_labels := labels.map fun l => classes.findIdx fun c => c == l
  let num_classes := labels.toFinset.card
  let n := data.length
  let n_test := (n + 3) / 4
  let perm := pyShuffle 42 (List.range n)
  let test_idx := perm.take n_test
  let train_idx := perm.drop n_test
  let x_train := train_idx.map fun i => data.getD i dflt
  let x_val := test_idx.map fun i => data.getD i dflt
  let y_train := train_idx.map fun i => oneHot num_classes (encoded_labels.getD i 0)
  let y_val := test_idx.map fun i => oneHot num_classes (encoded_labels.getD i 0)
  (x_train, x_val, y_train, y_val, get_image_generator)

/-! ### Trainer (src/fruit_classifier/train/train_utils.py) -/

/-- One per-epoch record of a keras `History`. -/
structure EpochRecord where
  steps : ℕ
  loss : ℚ
  val_loss : ℚ
  acc : ℚ
  val_acc : ℚ

/-- Modelled from the spec: the keras `fit_generator` contract — "for each
epoch, draws augmented batches from the training set (steps per epoch =
floor(train size / batch size)), updates model parameters via
backpropagation delegated to the external library, and evaluates on the
held-out validation set; records per-epoch metrics".  `step` is one
batch update on an abstract model state, `metrics` the end-of-epoch
train/validation evaluation producing (loss, val_loss, acc, val_acc). -/
def fit_generator {M : Type*} (step : M → M) (metrics : M → ℚ × ℚ × ℚ × ℚ)
    (steps_per_epoch : ℕ) : ℕ → M → M × List EpochRecord
  | 0, m => (m, [])
  | e + 1, m =>
    let m1 := step^[steps_per_epoch] m
    let ms := metrics m1
    let rest := fit_generator step metrics steps_per_epoch e m1
    (rest.1, ⟨steps_per_epoch, ms.1, ms.2.1, ms.2.2.1, ms.2.2.2⟩ :: rest.2)

/-- Default batch size of `train_model`. -/
def batch_size_default : ℕ := 32

/-- Default epoch count of `train_model`. -/
def epochs_default : ℕ := 25

/-- Model of `train_model` (train_utils.py, lines 175-207): run the fit loop
with `steps_per_epoch = len(x_train) // batch_size` for `epochs` epochs and
return the history; the model artifact the source then serializes to disk is
the first component of the result. -/
def train_model {M α β : Type*} (step : M → M) (metrics : M → ℚ × ℚ × ℚ × ℚ)
    (x_train : List α) (y_train : List β) (x_val : List α) (y_val : List β)
    (batch_size epochs : ℕ) (m : M) : M × List EpochRecord :=
  fit_generator step metrics (x_train.length / batch_size) epochs m

/-! ### Theorems about the Preprocessor -/

lemma convexKern_unit : ConvexKern 1 1 (fun _ _ _ _ => 1) :=
  ⟨fun _ _ _ _ => zero_le_one, fun _ _ => by simp⟩

lemma resample_nonneg (H W : ℕ) (k : Kern H W) (img : Fin H → Fin W → Fin 3 → ℚ)
    (hk : ∀ oi oj i j, 0 ≤ k oi oj i j) (himg : ∀ i j c, 0 ≤ img i j c)
    (oi oj : Fin 28) (c : Fin 3) : 0 ≤ resample H W k img oi oj c :=
  Finset.sum_nonneg fun i _ => Finset.sum_nonneg fun j _ =>
    mul_nonneg (hk oi oj i j) (himg i j c)

lemma resample_le_one (H W : ℕ) (k : Kern H W) (img : Fin H → Fin W → Fin 3 → ℚ)
    (hk : ConvexKern H W k) (himg : ∀ i j c, img i j c ≤ 1)
    (oi oj : Fin 28) (c : Fin 3) : resample H W k img oi oj c ≤ 1 := by
  have h : resample H W k img oi oj c ≤ ∑ i : Fin H, ∑ j : Fin W, k oi oj i j := by
    refine Finset.sum_le_sum fun i _ => Finset.sum_le_sum fun j _ => ?_
    calc k oi oj i j * img i j c ≤ k oi oj i j * 1 :=
          mul_le_mul_of_nonneg_left (himg i j c) (hk.1 oi oj i j)
      _ = k oi oj i j := mul_one _
  calc resample H W k img oi oj c ≤ ∑ i : Fin H, ∑ j : Fin W, k oi oj i j := h
    _ = 1 := hk.2 oi oj

lemma resample_const (H W : ℕ) (k : Kern H W) (hk : ConvexKern H W k) (v : ℚ)
    (oi oj : Fin 28) (c : Fin 3) : resample H W k (fun _ _ _ => v) oi oj c = v := by
  have h : resample H W k (fun _ _ _ => v) oi oj c
      = (∑ i : Fin H, ∑ j : Fin W, k oi oj i j) * v := by
    unfold resample
    rw [Finset.sum_mul]
    exact Finset.sum_congr rfl fun i _ => by rw [Finset.sum_mul]
  rw [h, hk.2 oi oj, one_mul]

/-- C2: for every 8-bit input image of any height, width and 3-channel depth
and every convex resampling kernel, `preprocess_image` returns a 28×28×3
tensor (the output shape is enforced by the result type) whose values all lie
in the interval `[0, 1]`. -/
theorem preprocess_image_range (H W : ℕ) (k : Kern H W) (img : Img H W)
    (hk : ConvexKern H W k) (himg : ∀ i j c, img i j c ≤ 255)
    (oi oj : Fin 28) (c : Fin 3) :
    0 ≤ preprocess_image H W k img oi oj c ∧
      preprocess_image H W k img oi oj c ≤ 1 := by
  have h0 : ∀ i j ch, 0 ≤ imgAsFloat H W img i j ch := fun i j ch => by
    unfold imgAsFloat
    positivity
  have h1 : ∀ i j ch, imgAsFloat H W img i j ch ≤ 1 := fun i j ch => by
    unfold imgAsFloat
    rw [div_le_one (by norm_num)]
    exact_mod_cast himg i j ch
  have hlow : 0 ≤ skimage_resize H W k img oi oj c :=
    resample_nonneg H W k _ hk.1 h0 oi oj c
  have hhigh : skimage_resize H W k img oi oj c ≤ 1 :=
    resample_le_one H W k _ hk h1 oi oj c
  unfold preprocess_image
  constructor
  · positivity
  · have h2 : skimage_resize H W k img oi oj c / 255 ≤ 1 / 255 := by gcongr
    linarith

/-- C2 witness: the range theorem instantiated on the constant-255 one-pixel
image with the trivial convex kernel. -/
theorem preprocess_image_range_witness :
    (ConvexKern 1 1 (fun _ _ _ _ => 1) ∧
      ∀ i j c, (fun _ _ _ => 255 : Img 1 1) i j c ≤ 255) ∧
    (0 ≤ preprocess_image 1 1 (fun _ _ _ _ => 1) (fun _ _ _ => 255) 0 0 0 ∧
      preprocess_image 1 1 (fun _ _ _ _ => 1) (fun _ _ _ => 255) 0 0 0 ≤ 1) :=
  ⟨⟨convexKern_unit, fun _ _ _ => le_refl 255⟩,
    preprocess_image_range 1 1 _ _ convexKern_unit (fun _ _ _ => le_refl 255) 0 0 0⟩

/-- C3: for every 8-bit input image, every value produced by
`preprocess_image` is at most `1/255`, because the `skimage` resize already
rescales the image to `[0,1]` floats before the explicit division by 255; in
particular no output value ever reaches 1. -/
theorem preprocess_image_le_inv255 (H W : ℕ) (k : Kern H W) (img : Img H W)
    (hk : ConvexKern H W k) (himg : ∀ i j c, img i j c ≤ 255)
    (oi oj : Fin 28) (c : Fin 3) :
    preprocess_image H W k img oi oj c ≤ 1 / 255 ∧
      preprocess_image H W k img oi oj c < 1 := by
  have h1 : ∀ i j ch, imgAsFloat H W img i j ch ≤ 1 := fun i j ch => by
    unfold imgAsFloat
    rw [div_le_one (by norm_num)]
    exact_mod_cast himg i j ch
  have hhigh : skimage_resize H W k img oi oj c ≤ 1 :=
    resample_le_one H W k _ hk h1 oi oj c
  have h2 : skimage_resize H W k img oi oj c / 255 ≤ 1 / 255 := by gcongr
  unfold preprocess_image
  exact ⟨h2, by linarith⟩

/-- C3 witness: the `1/255` bound instantiated on the constant-255 one-pixel
image with the trivial convex kernel. -/
theorem preprocess_image_le_inv255_witness :
    (ConvexKern 1 1 (fun _ _ _ _ => 1) ∧
      ∀ i j c, (fun _ _ _ => 255 : Img 1 1) i j c ≤ 255) ∧
    (preprocess_image 1 1 (fun _ _ _ _ => 1) (fun _ _ _ => 255) 0 0 0 ≤ 1 / 255 ∧
      preprocess_image 1 1 (fun _ _ _ _ => 1) (fun _ _ _ => 255) 0 0 0 < 1) :=
  ⟨⟨convexKern_unit, fun _ _ _ => le_refl 255⟩,
    preprocess_image_le_inv255 1 1 _ _ convexKern_unit (fun _ _ _ => le_refl 255) 0 0 0⟩

/-- C1 (refutation as stated / code bug): the transform used when building the
training dataset and the transform used at prediction time are not identical.
On the all-255 image, for every pair of convex resampling kernels, the
training path (`cv2.resize` keeps the `0..255` scale, then the stacked array
is divided by 255) produces the value 1 at every output position, while the
prediction path (`skimage` resize already rescales to `[0,1]`, then
`preprocess_image` divides by 255 again) produces `1/255`; the two outputs
therefore differ. -/
theorem train_predict_transform_diverge (H W : ℕ) (k kcv : Kern H W)
    (hk : ConvexKern H W k) (hkcv : ConvexKern H W kcv)
    (oi oj : Fin 28) (c : Fin 3) :
    train_image_transform H W kcv (fun _ _ _ => 255) oi oj c = 1 ∧
      preprocess_image H W k (fun _ _ _ => 255) oi oj c = 1 / 255 ∧
      train_image_transform H W kcv (fun _ _ _ => 255) oi oj c ≠
        preprocess_image H W k (fun _ _ _ => 255) oi oj c := by
  have hres : resample H W kcv
      (fun i j ch => (((fun _ _ _ => 255 : Img H W) i j ch : ℕ) : ℚ)) oi oj c = 255 := by
    have h : (fun i j ch => (((fun _ _ _ => 255 : Img H W) i j ch : ℕ) : ℚ))
        = (fun _ _ _ => (255 : ℚ) : Fin H → Fin W → Fin 3 → ℚ) := by
      funext i j ch
      norm_num
    rw [h]
    exact resample_const H W kcv hkcv 255 oi oj c
  have hfloor : (⌊(255 : ℚ) + 1 / 2⌋).toNat = 255 := by
    have h : ⌊(255 : ℚ) + 1 / 2⌋ = 255 := by
      rw [Int.floor_eq_iff]
      constructor <;> norm_num
    rw [h]
    rfl
  have hcv : cv2_resize H W kcv (fun _ _ _ => 255) oi oj c = 255 := by
    unfold cv2_resize
    rw [hres, hfloor]
  have hflo : imgAsFloat H W (fun _ _ _ => 255)
      = (fun _ _ _ => (1 : ℚ) : Fin H → Fin W → Fin 3 → ℚ) := by
    funext i j ch
    unfold imgAsFloat
    norm_num
  have hsk : preprocess_image H W k (fun _ _ _ => 255) oi oj c = 1 / 255 := by
    unfold preprocess_image skimage_resize
    rw [hflo, resample_const H W k hk]
  have htr : train_image_transform H W kcv (fun _ _ _ => 255) oi oj c = 1 := by
    unfold train_image_transform
    rw [hcv]
    norm_num
  refine ⟨htr, hsk, ?_⟩
  rw [htr, hsk]
  norm_num

/-- C1 witness: the divergence exhibited on the one-pixel all-255 image with
the trivial convex kernel on both paths. -/
theorem train_predict_transform_diverge_witness :
    ConvexKern 1 1 (fun _ _ _ _ => 1) ∧
      (train_image_transform 1 1 (fun _ _ _ _ => 1) (fun _ _ _ => 255) 0 0 0 = 1 ∧
        preprocess_image 1 1 (fun _ _ _ _ => 1) (fun _ _ _ => 255) 0 0 0 = 1 / 255 ∧
        train_image_transform 1 1 (fun _ _ _ _ => 1) (fun _ _ _ => 255) 0 0 0 ≠
          preprocess_image 1 1 (fun _ _ _ _ => 1) (fun _ _ _ => 255) 0 0 0) :=
  ⟨convexKern_unit,
    train_predict_transform_diverge 1 1 _ _ convexKern_unit convexKern_unit 0 0 0⟩

/-! ### Theorems about the shuffle and the File Collector -/

lemma getElem_cons_eraseIdx_perm {α : Type*} (l : List α) (i : ℕ) (hi : i < l.length) :
    (l[i] :: l.eraseIdx i).Perm l := by
  rw [List.eraseIdx_eq_take_drop_succ]
  have h : (l[i] :: (l.take i ++ l.drop (i + 1))).Perm
      (l.take i ++ l[i] :: l.drop (i + 1)) := List.perm_middle.symm
  have h3 : l.take i ++ l[i] :: l.drop (i + 1) = l := by
    rw [List.getElem_cons_drop l i hi]
    exact List.take_append_drop i l
  rw [h3] at h
  exact h

lemma shuffleAux_perm {α : Type*} : ∀ (n s : ℕ) (l : List α), l.length ≤ n →
    (shuffleAux n s l).Perm l := by
  intro n
  induction n with
  | zero =>
    intro s l hl
    have h : l = [] := List.eq_nil_of_length_eq_zero (Nat.le_zero.mp hl)
    subst h
    simp [shuffleAux]
  | succ n ih =>
    intro s l hl
    cases l with
    | nil => simp [shuffleAux]
    | cons a as =>
      have hi : lcgNext s % (a :: as).length < (a :: as).length :=
        Nat.mod_lt _ (Nat.succ_pos as.length)
      have hlen : ((a :: as).eraseIdx (lcgNext s % (a :: as).length)).length ≤ n := by
        rw [List.length_eraseIdx_of_lt hi]
        simp only [List.length_cons] at hl ⊢
        omega
      have h1 := ih (lcgNext s) ((a :: as).eraseIdx (lcgNext s % (a :: as).length)) hlen
      have h2 := getElem_cons_eraseIdx_perm (a :: as) (lcgNext s % (a :: as).length) hi
      rw [shuffleAux]
      exact (h1.cons _).trans h2

lemma pyShuffle_perm {α : Type*} (seed : ℕ) (l : List α) : (pyShuffle seed l).Perm l :=
  shuffleAux_perm l.length seed l le_rfl

lemma pyShuffle_nil {α : Type*} (seed : ℕ) : pyShuffle seed ([] : List α) = [] := rfl

/-- C7 (amended): `get_image_paths` returns the empty sequence — without
raising any error — both when the root directory does not exist (`pathlib`
glob yields nothing on a missing root instead of failing with
`NotFoundError`) and when the root exists but contains no files. -/
theorem get_image_paths_empty (fs : FS) (path : FsPath) (s : ℕ)
    (h : path ∉ fs.dirs ∨ ∀ p ∈ fs.files, ¬ strictUnder path p) :
    get_image_paths fs path s = [] := by
  have hnil : sortedImagePaths fs path = [] := by
    rcases h with h | h
    · unfold sortedImagePaths globStar
      rw [if_neg h]
      rfl
    · unfold sortedImagePaths
      rw [List.filter_eq_nil_iff]
      intro p hp
      simp only [decide_eq_true_eq]
      intro hpf
      by_cases hd : path ∈ fs.dirs
      · rw [globStar, if_pos hd, Finset.mem_sort, Finset.mem_filter] at hp
        exact h p hpf hp.2
      · rw [globStar, if_neg hd] at hp
        simp at hp
  unfold get_image_paths
  rw [hnil, pyShuffle_nil]

/-- C7 witness: the amended theorem applied to a concrete filesystem and a
concrete missing root. -/
theorem get_image_paths_empty_witness :
    ((["missing"] : FsPath) ∉
        (FS.mk {(["d", "f"] : FsPath)} {(["d"] : FsPath)} fun _ => 0).dirs) ∧
      get_image_paths (FS.mk {(["d", "f"] : FsPath)} {(["d"] : FsPath)} fun _ => 0)
        ["missing"] 5 = [] :=
  ⟨by decide, get_image_paths_empty _ _ 5 (Or.inl (by decide))⟩

/-- C7 counterexample: on a concrete filesystem the requested root
`["missing"]` does not exist, yet `get_image_paths` evaluates to the empty
list; the embedded collector is total, so the `NotFoundError` failure the
claim requires cannot occur. -/
theorem get_image_paths_missing_root_no_error :
    ((["missing"] : FsPath) ∉
        (FS.mk {(["d", "f"] : FsPath)} {(["d"] : FsPath)} fun _ => 0).dirs) ∧
      get_image_paths (FS.mk {(["d", "f"] : FsPath)} {(["d"] : FsPath)} fun _ => 0)
        ["missing"] 0 = [] := by
  decide

/-- C8: the File Collector is deterministic: the pseudo-random state on entry
is irrelevant because the source reseeds with the fixed constant 42, so two
calls on the same directory contents return identical orderings; moreover the
result is a permutation of the lexicographically sorted enumeration of the
files strictly below the root, and directories are excluded from the
result. -/
theorem get_image_paths_deterministic (fs : FS) (root : FsPath) (s t : ℕ) :
    get_image_paths fs root s = get_image_paths fs root t ∧
      (get_image_paths fs root s).Perm (sortedImagePaths fs root) ∧
      ∀ p ∈ get_image_paths fs root s, p ∈ fs.files ∧ strictUnder root p := by
  refine ⟨rfl, pyShuffle_perm 42 _, ?_⟩
  intro p hp
  unfold get_image_paths at hp
  have hmem : p ∈ sortedImagePaths fs root :=
    (pyShuffle_perm 42 (sortedImagePaths fs root)).mem_iff.mp hp
  unfold sortedImagePaths at hmem
  rw [List.mem_filter] at hmem
  obtain ⟨hglob, hfile⟩ := hmem
  simp only [decide_eq_true_eq] at hfile
  refine ⟨hfile, ?_⟩
  by_cases hd : root ∈ fs.dirs
  · rw [globStar, if_pos hd, Finset.mem_sort, Finset.mem_filter] at hglob
    exact hglob.2
  · rw [globStar, if_neg hd] at hglob
    simp at hglob

/-! ### Theorems about the Dataset Builder and the Trainer -/

/-- C9: for every dataset with matching labels, the `get_model_input` split
satisfies `len(x_train) + len(x_val) = n`, and the validation share is a
quarter of the samples up to rounding: `n ≤ 4 * len(x_val) ≤ n + 3`, i.e.
`len(x_val) = ceil(n / 4)` exactly as the fixed `test_size=0.25` prescribes;
the split is a pure function of the inputs (fixed ratio, fixed seed), so the
same input ordering always yields the same split. -/
theorem get_model_input_split {α : Type*} (dflt : α) (data : List α)
    (labels : List String) (h : labels.length = data.length) :
    (get_model_input dflt data labels).1.length
        + (get_model_input dflt data labels).2.1.length = data.length ∧
      data.length ≤ 4 * (get_model_input dflt data labels).2.1.length ∧
      4 * (get_model_input dflt data labels).2.1.length ≤ data.length + 3 ∧
      get_model_input dflt data labels = get_model_input dflt data labels := by
  have hlen : (pyShuffle 42 (List.range data.length)).length = data.length := by
    rw [(pyShuffle_perm 42 (List.range data.length)).length_eq, List.length_range]
  simp only [get_model_input, List.length_map, List.length_take, List.length_drop, hlen]
  refine ⟨?_, ?_, ?_, trivial⟩ <;> omega

/-- C9 witness: the split-size theorem instantiated on a concrete 4-sample,
2-class dataset: 3 training samples, 1 validation sample. -/
theorem get_model_input_split_witness :
    (["a", "b", "a", "b"] : List String).length = ([10, 20, 30, 40] : List ℕ).length ∧
      ((get_model_input 0 [10, 20, 30, 40] ["a", "b", "a", "b"]).1.length
          + (get_model_input 0 [10, 20, 30, 40] ["a", "b", "a", "b"]).2.1.length
          = ([10, 20, 30, 40] : List ℕ).length ∧
        ([10, 20, 30, 40] : List ℕ).length
          ≤ 4 * (get_model_input 0 [10, 20, 30, 40] ["a", "b", "a", "b"]).2.1.length ∧
        4 * (get_model_input 0 [10, 20, 30, 40] ["a", "b", "a", "b"]).2.1.length
          ≤ ([10, 20, 30, 40] : List ℕ).length + 3 ∧
        get_model_input 0 [10, 20, 30, 40] ["a", "b", "a", "b"]
          = get_model_input 0 [10, 20, 30, 40] ["a", "b", "a", "b"]) :=
  ⟨rfl, get_model_input_split 0 [10, 20, 30, 40] ["a", "b", "a", "b"] rfl⟩

lemma fit_generator_spec {M : Type*} (step : M → M) (metrics : M → ℚ × ℚ × ℚ × ℚ)
    (spe : ℕ) : ∀ (e : ℕ) (m : M),
      (fit_generator step metrics spe e m).2.length = e ∧
        (∀ r ∈ (fit_generator step metrics spe e m).2, r.steps = spe) ∧
        (fit_generator step metrics spe e m).1 = step^[e * spe] m := by
  intro e
  induction e with
  | zero =>
    intro m
    refine ⟨rfl, ?_, by simp [fit_generator, Nat.zero_mul]⟩
    intro r hr
    simp [fit_generator] at hr
  | succ e ih =>
    intro m
    obtain ⟨ih1, ih2, ih3⟩ := ih (step^[spe] m)
    refine ⟨?_, ?_, ?_⟩
    · simp only [fit_generator, List.length_cons]
      rw [ih1]
    · intro r hr
      simp only [fit_generator, List.mem_cons] at hr
      rcases hr with rfl | hr
      · rfl
      · exact ih2 r hr
    · simp only [fit_generator]
      rw [ih3, Nat.succ_mul]
      exact (Function.iterate_add_apply step (e * spe) spe m).symm

/-- C10: `train_model` runs the fit loop for exactly `epochs` epochs with
exactly `floor(len(x_train) / batch_size)` parameter-update steps per epoch
(every history record reports that step count, and the final model is the
train step iterated `epochs * floor(len(x_train) / batch_size)` times), the
returned `TrainingHistory` holds exactly one record per epoch, and the source
defaults are batch size 32 and epoch count 25. -/
theorem train_model_history {M α β : Type*} (step : M → M)
    (metrics : M → ℚ × ℚ × ℚ × ℚ) (x_train : List α) (y_train : List β)
    (x_val : List α) (y_val : List β) (batch_size epochs : ℕ) (m : M) :
    (train_model step metrics x_train y_train x_val y_val batch_size epochs m).2.length
        = epochs ∧
      (∀ r ∈ (train_model step metrics x_train y_train x_val y_val batch_size epochs m).2,
        r.steps = x_train.length / batch_size) ∧
      (train_model step metrics x_train y_train x_val y_val batch_size epochs m).1
        = step^[epochs * (x_train.length / batch_size)] m ∧
      batch_size_default = 32 ∧ epochs_default = 25 := by
  obtain ⟨h1, h2, h3⟩ :=
    fit_generator_spec step metrics (x_train.length / batch_size) epochs m
  exact ⟨h1, h2, h3, rfl, rfl⟩

/-! ### Theorems about the Image Sanitizer -/

lemma rebase_under (src dst p : FsPath) : dst <+: rebase src dst p :=
  List.prefix_append dst (p.drop src.length)

lemma unrelated_no_clean {raw clean p : FsPath} (h : Unrelated raw clean)
    (hp : raw <+: p) : ¬ clean <+: p := fun hc =>
  (List.prefix_or_prefix_of_prefix hp hc).elim h.1 h.2

lemma mem_copytree_files {src dst : FsPath} {fs : FS} {p : FsPath} :
    p ∈ (copytree src dst fs).files ↔
      p ∈ fs.files ∨ ∃ q ∈ fs.files, src <+: q ∧ p = rebase src dst q := by
  simp only [copytree, Finset.mem_union, Finset.mem_image, Finset.mem_filter]
  constructor
  · rintro (hp | ⟨q, ⟨hq1, hq2⟩, rfl⟩)
    · exact Or.inl hp
    · exact Or.inr ⟨q, hq1, hq2, rfl⟩
  · rintro (hp | ⟨q, hq1, hq2, rfl⟩)
    · exact Or.inl hp
    · exact Or.inr ⟨q, ⟨hq1, hq2⟩, rfl⟩

lemma mem_copytree_dirs {src dst : FsPath} {fs : FS} {p : FsPath} :
    p ∈ (copytree src dst fs).dirs ↔
      p = dst ∨ p ∈ fs.dirs ∨ ∃ q ∈ fs.dirs, src <+: q ∧ p = rebase src dst q := by
  simp only [copytree, Finset.mem_insert, Finset.mem_union, Finset.mem_image,
    Finset.mem_filter]
  constructor
  · rintro (hp | hp | ⟨q, ⟨hq1, hq2⟩, rfl⟩)
    · exact Or.inl hp
    · exact Or.inr (Or.inl hp)
    · exact Or.inr (Or.inr ⟨q, hq1, hq2, rfl⟩)
  · rintro (hp | hp | ⟨q, hq1, hq2, rfl⟩)
    · exact Or.inl hp
    · exact Or.inr (Or.inl hp)
    · exact Or.inr (Or.inr ⟨q, ⟨hq1, hq2⟩, rfl⟩)

lemma copytree_content (src dst : FsPath) (fs : FS) (p : FsPath) :
    (copytree src dst fs).content p =
      if dst <+: p ∧ (src ++ p.drop dst.length) ∈ fs.files then
        fs.content (src ++ p.drop dst.length)
      else fs.content p := rfl

lemma mem_remove_files {decode : ℕ → Bool} {raw clean : FsPath} {fs : FS} {p : FsPath} :
    p ∈ (remove_non_images decode raw clean fs).files ↔
      p ∈ (copytree raw clean fs).files ∧
        ¬(strictUnder clean p ∧ decode ((copytree raw clean fs).content p) = false) := by
  simp only [remove_non_images, Finset.mem_filter]

lemma copytree_content_raw_side {raw clean p : FsPath} {fs : FS} (h : Unrelated raw clean)
    (hp : raw <+: p) : (copytree raw clean fs).content p = fs.content p := by
  rw [copytree_content, if_neg]
  rintro ⟨hc, _⟩
  exact unrelated_no_clean h hp hc

lemma mem_copytree_files_raw_side {raw clean p : FsPath} {fs : FS}
    (h : Unrelated raw clean) (hp : raw <+: p) :
    p ∈ (copytree raw clean fs).files ↔ p ∈ fs.files := by
  rw [mem_copytree_files]
  constructor
  · rintro (hm | ⟨q, _, _, rfl⟩)
    · exact hm
    · exact absurd (rebase_under raw clean q) (unrelated_no_clean h hp)
  · exact fun hm => Or.inl hm

lemma mem_remove_files_raw_side {decode : ℕ → Bool} {raw clean p : FsPath} {fs : FS}
    (h : Unrelated raw clean) (hp : raw <+: p) :
    p ∈ (remove_non_images decode raw clean fs).files ↔ p ∈ fs.files := by
  rw [mem_remove_files]
  constructor
  · rintro ⟨hm, _⟩
    exact (mem_copytree_files_raw_side h hp).mp hm
  · intro hm
    refine ⟨(mem_copytree_files_raw_side h hp).mpr hm, ?_⟩
    rintro ⟨⟨hc, _⟩, _⟩
    exact unrelated_no_clean h hp hc

/-- C5 (amended): provided neither of the raw and clean directories lies
inside the other (in the pipeline they are the sibling directories `raw_data`
and `cleaned_data`), `remove_non_images` leaves everything at or below the
raw directory untouched — file set, directory set and contents — and every
file it deletes lies strictly below the clean directory. -/
theorem remove_non_images_frame (decode : ℕ → Bool) (raw clean : FsPath) (fs : FS)
    (h : Unrelated raw clean) :
    (∀ p, raw <+: p →
        ((p ∈ (remove_non_images decode raw clean fs).files ↔ p ∈ fs.files) ∧
          (p ∈ (remove_non_images decode raw clean fs).dirs ↔ p ∈ fs.dirs) ∧
          (remove_non_images decode raw clean fs).content p = fs.content p)) ∧
      ∀ p ∈ fs.files, p ∉ (remove_non_images decode raw clean fs).files →
        strictUnder clean p := by
  constructor
  · intro p hp
    refine ⟨mem_remove_files_raw_side h hp, ?_, copytree_content_raw_side h hp⟩
    have hd : (remove_non_images decode raw clean fs).dirs
        = (copytree raw clean fs).dirs := rfl
    rw [hd, mem_copytree_dirs]
    constructor
    · rintro (rfl | hm | ⟨q, _, _, rfl⟩)
      · exact absurd hp h.1
      · exact hm
      · exact absurd (rebase_under raw clean q) (unrelated_no_clean h hp)
    · exact fun hm => Or.inr (Or.inl hm)
  · intro p hpf hpn
    rw [mem_remove_files] at hpn
    push_neg at hpn
    exact (hpn (mem_copytree_files.mpr (Or.inl hpf))).1

/-- C5 witness: on concrete sibling directories with one undecodable raw
file, the sanitization pass leaves the raw file in place. -/
theorem remove_non_images_frame_witness :
    Unrelated ["a"] ["b"] ∧ (["a"] : FsPath) <+: ["a", "x"] ∧
      ((["a", "x"] : FsPath) ∈ (remove_non_images (fun _ => false) ["a"] ["b"]
          (FS.mk {(["a", "x"] : FsPath)} {(["a"] : FsPath), ["b"]} fun _ => 0)).files ↔
        (["a", "x"] : FsPath) ∈
          (FS.mk {(["a", "x"] : FsPath)} {(["a"] : FsPath), ["b"]} fun _ => 0).files) :=
  ⟨by decide, by decide,
    ((remove_non_images_frame (fun _ => false) ["a"] ["b"]
      (FS.mk {(["a", "x"] : FsPath)} {(["a"] : FsPath), ["b"]} fun _ => 0)
      (by decide)).1 ["a", "x"] (by decide)).1⟩

/-- C5 counterexample: when the clean directory is nested inside the raw
directory (`raw = ["r"]`, `clean = ["r", "c"]`), the sanitization pass
deletes the undecodable file `["r", "c", "bad"]`, which lies below the raw
directory and existed there before the pass — so the raw tree is not left
unchanged for every choice of raw and clean directories. -/
theorem remove_non_images_nested_deletes_from_raw :
    (["r"] : FsPath) <+: ["r", "c", "bad"] ∧
      (["r", "c", "bad"] : FsPath) ∈
        (FS.mk {(["r", "c", "bad"] : FsPath)}
          {([] : FsPath), ["r"], ["r", "c"]} fun _ => 0).files ∧
      (["r", "c", "bad"] : FsPath) ∉
        (remove_non_images (fun _ => false) ["r"] ["r", "c"]
          (FS.mk {(["r", "c", "bad"] : FsPath)}
            {([] : FsPath), ["r"], ["r", "c"]} fun _ => 0)).files := by
  decide

lemma copytree_content_idem (decode : ℕ → Bool) (raw clean : FsPath) (fs : FS)
    (h : Unrelated raw clean) :
    (copytree raw clean (remove_non_images decode raw clean fs)).content
      = (copytree raw clean fs).content := by
  funext p
  have hmem : (raw ++ p.drop clean.length)
        ∈ (remove_non_images decode raw clean fs).files
      ↔ (raw ++ p.drop clean.length) ∈ fs.files :=
    mem_remove_files_raw_side h (List.prefix_append raw _)
  by_cases hc : clean <+: p ∧ (raw ++ p.drop clean.length) ∈ fs.files
  · rw [copytree_content, copytree_content, if_pos ⟨hc.1, hmem.mpr hc.2⟩, if_pos hc]
    exact copytree_content_raw_side h (List.prefix_append raw _)
  · have hc2 : ¬(clean <+: p ∧ (raw ++ p.drop clean.length)
        ∈ (remove_non_images decode raw clean fs).files) := by
      rintro ⟨h1, h2⟩
      exact hc ⟨h1, hmem.mp h2⟩
    rw [copytree_content, copytree_content, if_neg hc2, if_neg hc]
    have hr : (remove_non_images decode raw clean fs).content
        = (copytree raw clean fs).content := rfl
    rw [hr, copytree_content, if_neg hc]

lemma copytree_dirs_idem (decode : ℕ → Bool) (raw clean : FsPath) (fs : FS)
    (h : Unrelated raw clean) :
    (copytree raw clean (remove_non_images decode raw clean fs)).dirs
      = (copytree raw clean fs).dirs := by
  have hfilter : ((copytree raw clean fs).dirs.filter (fun p => raw <+: p))
      = fs.dirs.filter (fun p => raw <+: p) := by
    ext q
    simp only [Finset.mem_filter]
    constructor
    · rintro ⟨hm, hq⟩
      rw [mem_copytree_dirs] at hm
      rcases hm with rfl | hm | ⟨r, _, _, rfl⟩
      · exact absurd hq h.1
      · exact ⟨hm, hq⟩
      · exact absurd (rebase_under raw clean r) (unrelated_no_clean h hq)
    · rintro ⟨hm, hq⟩
      exact ⟨mem_copytree_dirs.mpr (Or.inr (Or.inl hm)), hq⟩
  have hstep : (copytree raw clean (remove_non_images decode raw clean fs)).dirs
      = insert clean ((copytree raw clean fs).dirs
          ∪ ((copytree raw clean fs).dirs.filter (fun p => raw <+: p)).image
              (rebase raw clean)) := rfl
  have hbase : (copytree raw clean fs).dirs
      = insert clean (fs.dirs
          ∪ (fs.dirs.filter (fun p => raw <+: p)).image (rebase raw clean)) := rfl
  rw [hstep, hfilter, hbase, Finset.insert_union, Finset.union_assoc,
    Finset.union_self, Finset.insert_idem]

lemma remove_files_idem (decode : ℕ → Bool) (raw clean : FsPath) (fs : FS)
    (h : Unrelated raw clean) :
    (remove_non_images decode raw clean (remove_non_images decode raw clean fs)).files
      = (remove_non_images decode raw clean fs).files := by
  ext p
  have hcontent := copytree_content_idem decode raw clean fs h
  constructor
  · intro hp
    rw [mem_remove_files] at hp
    obtain ⟨hcopy, hkeep⟩ := hp
    rw [hcontent] at hkeep
    rw [mem_copytree_files] at hcopy
    rcases hcopy with hm | ⟨q, hq, hraw, rfl⟩
    · exact hm
    · have hqf : q ∈ fs.files := (mem_remove_files_raw_side h hraw).mp hq
      rw [mem_remove_files]
      exact ⟨mem_copytree_files.mpr (Or.inr ⟨q, hqf, hraw, rfl⟩), hkeep⟩
  · intro hp
    have hkeep := (mem_remove_files.mp hp).2
    rw [mem_remove_files]
    refine ⟨mem_copytree_files.mpr (Or.inl hp), ?_⟩
    rw [hcontent]
    exact hkeep

/-- C6: sanitization is idempotent when the raw and clean directories are not
nested in each other (in the pipeline they are siblings): running
`remove_non_images` twice on the same directories produces exactly the same
filesystem as running it once — the model is total, so the second run cannot
fail, and it yields the same set of files in the clean tree — and after one
run every file remaining in the clean tree decodes successfully, so the
deletion scan of a re-run deletes nothing. -/
theorem remove_non_images_idempotent (decode : ℕ → Bool) (raw clean : FsPath)
    (fs : FS) (h : Unrelated raw clean) :
    remove_non_images decode raw clean (remove_non_images decode raw clean fs)
        = remove_non_images decode raw clean fs ∧
      ∀ p ∈ (remove_non_images decode raw clean fs).files, strictUnder clean p →
        decode ((remove_non_images decode raw clean fs).content p) = true := by
  constructor
  · apply FS.ext
    · exact remove_files_idem decode raw clean fs h
    · exact copytree_dirs_idem decode raw clean fs h
    · exact copytree_content_idem decode raw clean fs h
  · intro p hp hstrict
    have hkeep := (mem_remove_files.mp hp).2
    have hrc : (remove_non_images decode raw clean fs).content
        = (copytree raw clean fs).content := rfl
    rw [hrc]
    rcases Bool.eq_false_or_eq_true (decode ((copytree raw clean fs).content p)) with
      hb | hb
    · exact hb
    · exact absurd ⟨hstrict, hb⟩ hkeep

/-- C6 witness: idempotence applied to a concrete filesystem with one
decodable and one undecodable file under the raw directory. -/
theorem remove_non_images_idempotent_witness :
    Unrelated ["a"] ["b"] ∧
      remove_non_images (fun n => decide (n = 1)) ["a"] ["b"]
          (remove_non_images (fun n => decide (n = 1)) ["a"] ["b"]
            (FS.mk {(["a", "g"] : FsPath), ["a", "x"]} {(["a"] : FsPath), ["b"]}
              fun p => if p = ["a", "g"] ∨ p = ["b", "g"] then 1 else 0))
        = remove_non_images (fun n => decide (n = 1)) ["a"] ["b"]
            (FS.mk {(["a", "g"] : FsPath), ["a", "x"]} {(["a"] : FsPath), ["b"]}
              fun p => if p = ["a", "g"] ∨ p = ["b", "g"] then 1 else 0) :=
  ⟨by decide,
    (remove_non_images_idempotent (fun n => decide (n = 1)) ["a"] ["b"]
      (FS.mk {(["a", "g"] : FsPath), ["a", "x"]} {(["a"] : FsPath), ["b"]}
        fun p => if p = ["a", "g"] ∨ p = ["b", "g"] then 1 else 0)
      (by decide)).1⟩

/-- C6 counterexample: when the clean directory is nested inside the raw
directory (`raw = ["r"]`, `clean = ["r", "c"]`), a second sanitization run
re-copies the clean subtree into itself: the file `["r", "c", "c", "g"]`
lies strictly below the clean directory and exists after the second run but
not after the first, so the two runs do not yield the same set of files in
the clean tree for every choice of raw and clean directories. -/
theorem remove_non_images_nested_not_idempotent :
    strictUnder ["r", "c"] ["r", "c", "c", "g"] ∧
      (["r", "c", "c", "g"] : FsPath) ∉
        (remove_non_images (fun n => decide (n = 1)) ["r"] ["r", "c"]
          (FS.mk {(["r", "g"] : FsPath)} {([] : FsPath), ["r"], ["r", "c"]}
            fun _ => 1)).files ∧
      (["r", "c", "c", "g"] : FsPath) ∈
        (remove_non_images (fun n => decide (n = 1)) ["r"] ["r", "c"]
          (remove_non_images (fun n => decide (n = 1)) ["r"] ["r", "c"]
            (FS.mk {(["r", "g"] : FsPath)} {([] : FsPath), ["r"], ["r", "c"]}
              fun _ => 1))).files := by
  decide

end FruitClassifier
